import Mathlib

/-!
Verification of the commitai core: prompt building, backend-reply handling,
granular response parsing, diff splitting, version extraction and config
saving, shallowly embedded from the Go sources (internal/ai/gemini.go,
internal/git/git.go, internal/config/config.go).

Go strings are modelled as `List Char`; the Go standard-library string
helpers used by the code (strings.Split, strings.TrimSpace,
strings.HasPrefix, strings.TrimPrefix, strings.Join) are embedded as
executable functions below. Go maps whose contents the code builds by
repeated assignment are modelled as association lists in which an
assignment removes any earlier binding of the key and appends the new one.
-/

namespace Commitai

/-- Go strings, modelled as lists of characters. -/
abbrev Str := List Char

/-- The whitespace test of Go's `strings.TrimSpace` (unicode.IsSpace) on the
characters that can occur here: space, tab, newline, vertical tab, form
feed, carriage return, NEL and NBSP. -/
def isSpaceGo (c : Char) : Bool :=
  c = ' ' || c = '\t' || c = '\n' || c = (Char.ofNat 11) || c = (Char.ofNat 12) ||
  c = '\r' || c = (Char.ofNat 0x85) || c = (Char.ofNat 0xA0)

/-- Leading-whitespace removal (left half of `strings.TrimSpace`). -/
def trimLeft (s : Str) : Str := s.dropWhile isSpaceGo

/-- Trailing-whitespace removal (right half of `strings.TrimSpace`). -/
def trimRight (s : Str) : Str := (s.reverse.dropWhile isSpaceGo).reverse

/-- Go's `strings.TrimSpace`. -/
def trimSpace (s : Str) : Str := trimRight (trimLeft s)

/-- Go's `strings.HasPrefix`, as a Boolean function on character lists. -/
def hasPrefixB : Str → Str → Bool
  | [], _ => true
  | _ :: _, [] => false
  | a :: as, b :: bs => a = b && hasPrefixB as bs

/-- Go's `strings.TrimPrefix s pre`: drop `pre` from the front when present. -/
def trimPrefixB (s pre : Str) : Str :=
  if hasPrefixB pre s then s.drop pre.length else s

/-- First occurrence of `sep` in a string: `some (before, after)` splits the
string around the leftmost occurrence, `none` when there is none. -/
def findSplit (sep : Str) : Str → Option (Str × Str)
  | [] => none
  | c :: rest =>
    if hasPrefixB sep (c :: rest) then some ([], (c :: rest).drop sep.length)
    else
      match findSplit sep rest with
      | some (pre, post) => some (c :: pre, post)
      | none => none

/-- Fuel-indexed worker for `splitGo`; the fuel only bounds the number of
separator occurrences and is always chosen large enough. -/
def splitF (sep : Str) : Nat → Str → List Str
  | 0, s => [s]
  | f + 1, s =>
    match findSplit sep s with
    | none => [s]
    | some (pre, post) => pre :: splitF sep f post

/-- Go's `strings.Split s sep` for the non-empty separators used by the
code (`"---"`, `"\n"`, `" b/"`): the substrings around every
non-overlapping occurrence of `sep`, scanning left to right. -/
def splitGo (sep s : Str) : List Str :=
  if sep = [] then [s] else splitF sep (s.length + 1) s

/-- Go's `strings.Join parts sep`. -/
def joinGo (sep : Str) : List Str → Str
  | [] => []
  | [x] => x
  | x :: xs => x ++ sep ++ joinGo sep xs

/-- Go's `strings.Contains s sub`. -/
def containsSub (s sub : Str) : Bool := (findSplit sub s).isSome

/-- One assignment `m[k] = v` on a Go map modelled as an association list:
any previous binding of `k` is removed and the new one appended. -/
def mapInsert (m : List (Str × Str)) (k v : Str) : List (Str × Str) :=
  (m.filter (fun e => !(e.1 == k))) ++ [(k, v)]

/-- Lookup in the association-list model of a Go map. -/
def lookupA (m : List (Str × Str)) (k : Str) : Option Str :=
  (m.find? (fun e => e.1 == k)).map Prod.snd

/-! ## Data model (internal/git/git.go, internal/config/config.go) -/

/-- A staged file and its diff (git.FileChange). -/
structure FileChange where
  path : Str
  status : Str
  diff : Str
deriving DecidableEq, Repr

/-- The tool configuration (config.Config). -/
structure Config where
  geminiAPIKey : Str
  language : Str
  commitStyle : Str
  maxTokens : Nat
  model : Str
deriving DecidableEq, Repr

/-! ## String constants appearing in the Go sources -/

/-- The `FILE:` marker scanned for by parseCommitResponse. -/
def fileMarker : Str := "FILE:".toList

/-- The `MESSAGE:` marker scanned for by parseCommitResponse. -/
def msgMarker : Str := "MESSAGE:".toList

/-- The block delimiter of the granular reply format. -/
def sep3 : Str := "---".toList

/-- A newline, as the one-character separator of Go's line splits. -/
def nl : Str := "\n".toList

/-- The newline character. -/
def nlc : Char := '\n'

/-- The sentinel key used in single-message mode. -/
def allKey : Str := "__all__".toList

/-- The `diff --git ` section marker of splitDiffByFile. -/
def diffMarker : Str := "diff --git ".toList

/-- The ` b/` separator splitDiffByFile derives paths from. -/
def bSlash : Str := " b/".toList

/-! ## Response parser (gemini.go, parseCommitResponse) -/

/-- The per-block scanning state of parseCommitResponse's inner loop. -/
structure BlockState where
  filePath : Str
  message : Str
  inMessage : Bool
deriving DecidableEq, Repr

/-- One iteration of parseCommitResponse's line loop (gemini.go lines
239-256): a `FILE:` line sets the path and leaves message capture, a
`MESSAGE:` line enters capture (trailing text becoming the first message
line when non-empty), and while capturing every other line is appended,
newline-joined. -/
def processLine (st : BlockState) (line : Str) : BlockState :=
  if hasPrefixB fileMarker line then
    { st with filePath := trimSpace (trimPrefixB line fileMarker), inMessage := false }
  else if hasPrefixB msgMarker line then
    { st with inMessage := true,
              message := if trimSpace (trimPrefixB line msgMarker) ≠ [] then
                  trimSpace (trimPrefixB line msgMarker)
                else st.message }
  else if st.inMessage then
    { st with message := if st.message = [] then line else st.message ++ nlc :: line }
  else st

/-- The state reached after scanning every line of a (trimmed) block. -/
def blockFold (block : Str) : BlockState :=
  (splitGo nl (trimSpace block)).foldl processLine ⟨[], [], false⟩

/-- What one `---`-delimited block contributes to the mapping: an entry
only when the block is non-empty and both a non-empty path and a non-empty
message were captured; the stored message is whitespace-trimmed
(gemini.go lines 230-261). -/
def parseBlock (block : Str) : Option (Str × Str) :=
  if trimSpace block = [] then none
  else if (blockFold block).filePath ≠ [] ∧ (blockFold block).message ≠ [] then
    some ((blockFold block).filePath, trimSpace (blockFold block).message)
  else none

/-- The body of parseCommitResponse's block loop: parse one block and
assign its entry when it contributed one. -/
def granStep (m : List (Str × Str)) (block : Str) : List (Str × Str) :=
  match parseBlock block with
  | some e => mapInsert m e.1 e.2
  | none => m

/-- The mapping built by parseCommitResponse's block loop, before the
fallback policy is applied. -/
def granularEntries (raw : Str) : List (Str × Str) :=
  (splitGo sep3 raw).foldl granStep []

/-- gemini.go, parseCommitResponse: single-message mode maps the sentinel
key to the trimmed reply; granular mode parses `FILE:`/`MESSAGE:`/`---`
blocks, and when that yields nothing and there are staged changes, every
change path is assigned the whole trimmed reply. -/
def parseCommitResponse (raw : Str) (changes : List FileChange) (granular : Bool) :
    List (Str × Str) :=
  if granular = false then [(allKey, trimSpace raw)]
  else if granularEntries raw = [] ∧ changes ≠ [] then
    changes.foldl (fun m c => mapInsert m c.path (trimSpace raw)) []
  else granularEntries raw

/-! ## Prompt builder (gemini.go, buildCommitPrompt) -/

/-- Role line opening every prompt. -/
def roleText : Str := "You are an expert developer writing git commit messages.\n\n".toList

/-- The style name that triggers the Conventional Commits block. -/
def conventionalName : Str := "conventional".toList

/-- Conventional Commits instructions. -/
def conventionalText : Str :=
  ("Use Conventional Commits format: <type>(<scope>): <description>\n" ++
   "Types: feat, fix, docs, style, refactor, test, chore, perf, ci, build\n\n").toList

/-- Language code `pt`. -/
def ptName : Str := "pt".toList

/-- Language code `pt-br`. -/
def ptBrName : Str := "pt-br".toList

/-- The Portuguese language directive. -/
def ptDirective : Str := "Write commit messages in Portuguese (pt-BR).\n\n".toList

/-- The English language directive. -/
def enDirective : Str := "Write commit messages in English.\n\n".toList

/-- Header of the recent-commits context section. -/
def recentHeader : Str := "Recent commits for context:\n".toList

/-- Two-space indent before each recent commit. -/
def twoSpace : Str := "  ".toList

/-- Decimal rendering of a number, as Go's `%d`. -/
def natStr (n : Nat) : Str := Nat.toDigits 10 n

/-- First granular-header line, `I have %d staged file(s)...`. -/
def granHeadA (n : Nat) : Str :=
  ("I have ".toList) ++ natStr n ++
  (" staged file(s). Generate ONE commit message per file.\n".toList)

/-- Remaining fixed granular instructions, including the record framing. -/
def granHeadB : Str :=
  ("Rules:\n" ++
   "- Each message must be concise (max 72 chars for subject line)\n" ++
   "- Add a blank line then a short body if needed\n" ++
   "- Output format must be EXACTLY:\n\n" ++
   "FILE: <filepath>\nMESSAGE:\n<commit message>\n---\n\n" ++
   "Now here are the diffs:\n\n").toList

/-- Fixed single-message instructions. -/
def singleHead : Str :=
  ("Generate ONE single commit message that summarizes ALL the following staged changes.\n" ++
   "Rules:\n" ++
   "- Subject line: max 72 chars\n" ++
   "- Add a blank line then bullet points listing key changes if there are multiple files\n" ++
   "- Output ONLY the commit message, nothing else.\n\n" ++
   "Staged changes:\n\n").toList

/-- `FILE: ` with its trailing space, as emitted per file. -/
def fileMarkerSp : Str := "FILE: ".toList

/-- ` (status: ` between path and status. -/
def statusOpen : Str := " (status: ".toList

/-- `)` and newline closing the per-file header line. -/
def statusClose : Str := ")\n".toList

/-- `DIFF:` line and opening code fence of the granular branch. -/
def diffOpen : Str := "DIFF:\n```\n".toList

/-- Opening code fence of the single branch. -/
def fenceOpen : Str := "```\n".toList

/-- Newline and closing code fence. -/
def fenceClose : Str := "\n```\n".toList

/-- The truncation marker appended to an over-long diff. -/
def truncMarker : Str := "\n... (truncated)".toList

/-- Granular-branch diff cap: 3000 characters plus marker when longer. -/
def truncGranular (d : Str) : Str :=
  if 3000 < d.length then d.take 3000 ++ truncMarker else d

/-- Single-branch diff cap: 2000 characters plus marker when longer. -/
def truncSingle (d : Str) : Str :=
  if 2000 < d.length then d.take 2000 ++ truncMarker else d

/-- Per-file block of the granular branch (gemini.go lines 180-193). -/
def fileBlockGranular (c : FileChange) : Str :=
  fileMarkerSp ++ c.path ++ statusOpen ++ c.status ++ statusClose ++
  (if c.diff = [] then [] else diffOpen ++ truncGranular c.diff ++ fenceClose) ++ nl

/-- Per-file block of the single branch (gemini.go lines 202-214). -/
def fileBlockSingle (c : FileChange) : Str :=
  fileMarkerSp ++ c.path ++ statusOpen ++ c.status ++ statusClose ++
  (if c.diff = [] then [] else fenceOpen ++ truncSingle c.diff ++ fenceClose) ++ nl

/-- Recent-commits context section. -/
def recentSection (recentCommits : List Str) : Str :=
  if recentCommits = [] then []
  else recentHeader ++ (recentCommits.map (fun c => twoSpace ++ c ++ nl)).flatten ++ nl

/-- gemini.go, buildCommitPrompt: role line, optional Conventional Commits
block, language directive, optional recent-commit context, then the
mode-specific instructions and per-file blocks. -/
def buildCommitPrompt (cfg : Config) (changes : List FileChange) (granular : Bool)
    (recentCommits : List Str) : Str :=
  roleText ++
  (if cfg.commitStyle = conventionalName then conventionalText else []) ++
  (if cfg.language = ptName ∨ cfg.language = ptBrName then ptDirective else enDirective) ++
  recentSection recentCommits ++
  (if granular then granHeadA changes.length ++ granHeadB ++
      (changes.map fileBlockGranular).flatten
   else singleHead ++ (changes.map fileBlockSingle).flatten)

/-! ## Version extraction (gemini.go, SuggestNextVersion lines 88-95) -/

/-- Lowercase `v`. -/
def vStr : Str := "v".toList

/-- Does a (trimmed) line start with `v` or a decimal digit? -/
def versionLineP (l : Str) : Bool :=
  hasPrefixB vStr l ||
  (match l with
   | [] => false
   | c :: _ => decide ('0' ≤ c) && decide (c ≤ '9'))

/-- Scan the lines for the first version-looking one. -/
def firstVersionLine (fallback : Str) : List Str → Str
  | [] => fallback
  | l :: ls =>
    let l := trimSpace l
    if versionLineP l then trimPrefixB l vStr else firstVersionLine fallback ls

/-- The pure reply post-processing of SuggestNextVersion: split the trimmed
reply into lines, return the first trimmed line starting with `v` or a
digit with one leading `v` stripped, else the whole trimmed reply. -/
def extractVersion (raw : Str) : Str :=
  firstVersionLine (trimSpace raw) (splitGo nl (trimSpace raw))

/-! ## Backend reply handling (gemini.go, callGemini lines 128-142) -/

/-- One text part of a reply candidate. -/
structure GeminiPart where
  text : Str
deriving DecidableEq, Repr

/-- The content of a reply candidate. -/
structure GeminiContent where
  parts : List GeminiPart
deriving DecidableEq, Repr

/-- One reply candidate. -/
structure GeminiCandidate where
  content : GeminiContent
deriving DecidableEq, Repr

/-- The structured error object of the reply envelope. -/
structure GeminiError where
  message : Str
deriving DecidableEq, Repr

/-- The deserialized reply envelope. -/
structure GeminiResponse where
  candidates : List GeminiCandidate
  error : Option GeminiError
deriving DecidableEq, Repr

/-- How callGemini can fail after deserializing the envelope. -/
inductive CallError where
  | backendError (message : Str)
  | emptyResponse
deriving DecidableEq, Repr

/-- callGemini's handling of a deserialized envelope: a structured error
fails with that error's message; no candidate or no part in the first
candidate fails as an empty response; otherwise the first candidate's
first part's text is returned verbatim. -/
def callGeminiResult (resp : GeminiResponse) : Except CallError Str :=
  match resp.error with
  | some e => Except.error (CallError.backendError e.message)
  | none =>
    match resp.candidates with
    | [] => Except.error CallError.emptyResponse
    | c :: _ =>
      match c.content.parts with
      | [] => Except.error CallError.emptyResponse
      | p :: _ => Except.ok p.text

/-! ## Diff splitting (git.go, splitDiffByFile lines 155-181) -/

/-- The scanning state of splitDiffByFile's loop. -/
structure SplitState where
  currentFile : Str
  currentLines : List Str
  result : List (Str × Str)
deriving DecidableEq, Repr

/-- One iteration of splitDiffByFile's line loop: a `diff --git ` line
flushes the accumulated section (when a file is current) and derives the
new path by splitting the marker line on ` b/` and taking the final
segment; any other line is accumulated. -/
def splitDiffLine (st : SplitState) (line : Str) : SplitState :=
  if hasPrefixB diffMarker line then
    let result :=
      if st.currentFile ≠ [] ∧ st.currentLines ≠ [] then
        mapInsert st.result st.currentFile (joinGo nl st.currentLines)
      else st.result
    let parts := splitGo bSlash line
    let currentFile := if 2 ≤ parts.length then parts.getLastD [] else st.currentFile
    ⟨currentFile, [line], result⟩
  else ⟨st.currentFile, st.currentLines ++ [line], st.result⟩

/-- git.go, splitDiffByFile: partition a combined unified diff into
per-path sections, flushing the final section after the scan. -/
def splitDiffByFile (diff : Str) : List (Str × Str) :=
  let st := (splitGo nl diff).foldl splitDiffLine ⟨[], [], []⟩
  if st.currentFile ≠ [] ∧ st.currentLines ≠ [] then
    mapInsert st.result st.currentFile (joinGo nl st.currentLines)
  else st.result

/-! ## Config saving (config.go, Save lines 321-339) -/

/-- config.go, Save: the struct actually marshalled to disk — a copy of
the in-memory configuration whose API key is blanked whenever the
GEMINI_API_KEY environment variable is non-empty. -/
def savedConfig (cfg : Config) (env : Str) : Config :=
  if env ≠ [] then { cfg with geminiAPIKey := [] } else cfg

/-- A JSON string literal with the basic escapes. -/
def jsonQuote (s : Str) : Str :=
  '"' :: (s.map (fun c =>
    if c = '"' ∨ c = '\\' then ['\\', c]
    else if c = nlc then "\\n".toList
    else [c])).flatten ++ ['"']

/-- Field label `gemini_api_key` (tagged omitempty in the Go struct). -/
def keyLabel : Str := "  \"gemini_api_key\": ".toList

/-- Field label `language`. -/
def langLabel : Str := "  \"language\": ".toList

/-- Field label `commit_style`. -/
def styleLabel : Str := "  \"commit_style\": ".toList

/-- Field label `max_tokens`. -/
def tokensLabel : Str := "  \"max_tokens\": ".toList

/-- Field label `model`. -/
def modelLabel : Str := "  \"model\": ".toList

/-- Comma-newline between JSON fields. -/
def commaNl : Str := ",\n".toList

/-- The indented JSON document written by Save (encoding/json MarshalIndent
with two-space indent; the `gemini_api_key` field is omitted when empty,
per its `omitempty` tag). -/
def marshalConfig (cfg : Config) : Str :=
  ['\x7b', '\n'] ++
  (if cfg.geminiAPIKey = [] then [] else keyLabel ++ jsonQuote cfg.geminiAPIKey ++ commaNl) ++
  langLabel ++ jsonQuote cfg.language ++ commaNl ++
  styleLabel ++ jsonQuote cfg.commitStyle ++ commaNl ++
  tokensLabel ++ natStr cfg.maxTokens ++ commaNl ++
  modelLabel ++ jsonQuote cfg.model ++ ['\n', '\x7d']

/-! ## The granular record grammar (spec sections 4.3 and 6)

The grammar is: N blocks, each a `FILE: <path>` line followed by a
`MESSAGE:` line and one or more message lines, every block followed by a
`---` delimiter line. For raw text to conform to this *line-oriented*
grammar, a path or message line must actually be a single line of its kind:
it contains no newline, a message line is non-empty (it shows some visible
character), a message line is not itself a `FILE:` or `MESSAGE:` marker
line, and neither a path nor a message line contains the `---` delimiter
(otherwise the text would also contain delimiter material outside the
delimiter lines and would not be a framing of these blocks). -/

/-- One record of the granular reply grammar. -/
structure GranRecord where
  path : Str
  msgLines : List Str
deriving DecidableEq, Repr

/-- The `\nMESSAGE:\n` text standing between the path and the message
lines of a record. -/
def msgHeaderBlock : Str := "\nMESSAGE:\n".toList

/-- The text of one record: `FILE: <path>`, a `MESSAGE:` line, then the
message lines, each on its own line. -/
def recordText (r : GranRecord) : Str :=
  fileMarkerSp ++ r.path ++ msgHeaderBlock ++ joinGo nl r.msgLines ++ nl

/-- The raw reply conforming to the grammar: every record followed by a
`---` delimiter line (matching spec section 8, scenario 1). -/
def rawOfRecords (rs : List GranRecord) : Str :=
  joinGo nl (rs.map (fun r => recordText r ++ sep3))

/-- What it takes for free text to be one *message line* of the grammar. -/
def lineOK (l : Str) : Prop :=
  trimSpace l ≠ [] ∧ nlc ∉ l ∧ findSplit sep3 l = none ∧
  hasPrefixB fileMarker l = false ∧ hasPrefixB msgMarker l = false

/-- Well-formedness of one record: a non-empty single-line path free of the
delimiter, and at least one message line, each conforming. -/
def recordOK (r : GranRecord) : Prop :=
  trimSpace r.path ≠ [] ∧ nlc ∉ r.path ∧ findSplit sep3 r.path = none ∧
  r.msgLines ≠ [] ∧ ∀ l ∈ r.msgLines, lineOK l

/-- lineOK is a conjunction of decidable conditions. -/
instance decidableLineOK (l : Str) : Decidable (lineOK l) :=
  decidable_of_iff (trimSpace l ≠ [] ∧ nlc ∉ l ∧ findSplit sep3 l = none ∧
    hasPrefixB fileMarker l = false ∧ hasPrefixB msgMarker l = false) (by rw [lineOK])

/-- recordOK is a conjunction of decidable conditions. -/
instance decidableRecordOK (r : GranRecord) : Decidable (recordOK r) :=
  decidable_of_iff (trimSpace r.path ≠ [] ∧ nlc ∉ r.path ∧ findSplit sep3 r.path = none ∧
    r.msgLines ≠ [] ∧ ∀ l ∈ r.msgLines, lineOK l) (by rw [recordOK])

/-- The tail fragments produced by splitting a conforming raw text on
`---`: every later record picks up the newline that followed the previous
delimiter, and a final empty fragment remains after the last delimiter. -/
def tfrags : List GranRecord → List Str
  | [] => [[]]
  | r :: rs => (nlc :: recordText r) :: tfrags rs

/-- Trailing-whitespace removal on the last element of a line list — the
effect of block trimming on the final message line. -/
def modLast : List Str → List Str
  | [] => []
  | [x] => [trimRight x]
  | x :: xs => x :: modLast xs

/-- The message accumulated by the parser's capture loop over a line list. -/
def msgAcc (m : Str) : List Str → Str
  | [] => m
  | l :: ls => msgAcc (if m = [] then l else m ++ nlc :: l) ls

/-! ## Concrete inputs used by the claim theorems and witnesses -/

/-- Path `a.go` of spec scenario 1. -/
def pathAGo : Str := "a.go".toList

/-- Path `b.go` of spec scenario 1. -/
def pathBGo : Str := "b.go".toList

/-- Message `fix: bug` of spec scenario 1. -/
def msgFixBug : Str := "fix: bug".toList

/-- Message `feat: x` of spec scenario 1. -/
def msgFeatX : Str := "feat: x".toList

/-- The two records of spec scenario 1. -/
def rsScenario1 : List GranRecord := [⟨pathAGo, [msgFixBug]⟩, ⟨pathBGo, [msgFeatX]⟩]

/-- The raw reply of spec scenario 1. -/
def scenario1Raw : Str :=
  "FILE: a.go\nMESSAGE:\nfix: bug\n---\nFILE: b.go\nMESSAGE:\nfeat: x\n---".toList

/-- The unframed raw reply of spec scenario 2. -/
def rawNoFraming : Str := "no framing at all".toList

/-- Path `x.go` of spec scenario 2. -/
def pathXGo : Str := "x.go".toList

/-- Path `y.go` of spec scenario 2. -/
def pathYGo : Str := "y.go".toList

/-- Change for `x.go` of spec scenario 2. -/
def chXGo : FileChange := ⟨pathXGo, [], []⟩

/-- Change for `y.go` of spec scenario 2. -/
def chYGo : FileChange := ⟨pathYGo, [], []⟩

/-- The backend error message of spec scenario 3. -/
def quotaMsg : Str := "quota exceeded".toList

/-- A part text with surrounding whitespace, to exhibit verbatim return. -/
def okText : Str := " hi there ".toList

/-- Envelope carrying a structured error. -/
def respErr : GeminiResponse := ⟨[], some ⟨quotaMsg⟩⟩

/-- Envelope with zero candidates. -/
def respEmptyCand : GeminiResponse := ⟨[], none⟩

/-- Envelope whose first candidate has zero parts. -/
def respNoParts : GeminiResponse := ⟨[⟨⟨[]⟩⟩], none⟩

/-- Successful envelope. -/
def respOk : GeminiResponse := ⟨[⟨⟨[⟨okText⟩]⟩⟩], none⟩

/-- The upper-case language code `PT`. -/
def langPT : Str := "PT".toList

/-- The language code `en`. -/
def langEn : Str := "en".toList

/-- A configuration whose language is `PT`. -/
def cfgPT : Config := ⟨[], langPT, [], 1024, []⟩

/-- Status letter `M`. -/
def statusM : Str := "M".toList

/-- A diff of exactly 3001 characters. -/
def diff3001 : Str := List.replicate 3001 'x'

/-- A diff of exactly 3000 characters. -/
def diff3000 : Str := List.replicate 3000 'x'

/-- A change whose diff crosses the granular truncation boundary. -/
def chBig : FileChange := ⟨pathXGo, statusM, diff3001⟩

/-- A change whose diff sits exactly at the granular truncation boundary. -/
def chExact : FileChange := ⟨pathYGo, statusM, diff3000⟩

/-- Section header line for `a.txt`. -/
def hdrATxt : Str := "diff --git a/a.txt b/a.txt".toList

/-- Section header line for `b/c.txt`. -/
def hdrBCTxt : Str := "diff --git a/b/c.txt b/b/c.txt".toList

/-- Path `a.txt`. -/
def pathATxt : Str := "a.txt".toList

/-- Path `b/c.txt`. -/
def pathBCTxt : Str := "b/c.txt".toList

/-- A diff body line. -/
def diffLine1 : Str := "--- a/a.txt".toList

/-- A diff body line. -/
def diffLine2 : Str := "+++ b/a.txt".toList

/-- A diff body line. -/
def diffLine3 : Str := "-x".toList

/-- A diff body line. -/
def diffLine4 : Str := "+y".toList

/-- A diff body line. -/
def diffLine5 : Str := "-u".toList

/-- A diff body line. -/
def diffLine6 : Str := "+v".toList

/-- Body of the `a.txt` diff section. -/
def bodyA : List Str := [diffLine1, diffLine2, diffLine3, diffLine4]

/-- Body of the `b/c.txt` diff section. -/
def bodyBC : List Str := [diffLine5, diffLine6]

/-- The version-suggestion reply of the spec's extraction scenario. -/
def verRaw : Str := "Explanation...\nv2.3.1\n".toList

/-- The version the spec expects to be extracted. -/
def verOut : Str := "2.3.1".toList

/-- A reply with surrounding whitespace, for the single-message mode test. -/
def cexRaw9 : Str := " x \n".toList

/-- An in-memory API key. -/
def keyAAAA : Str := "aaaa".toList

/-- A different in-memory API key. -/
def keyBBBB : Str := "bbbb".toList

/-- A non-empty GEMINI_API_KEY environment value. -/
def envSecret : Str := "SECRET".toList

/-- The default model name. -/
def modelFlash : Str := "gemini-2.0-flash".toList

/-- A configuration holding one API key in memory. -/
def cfgKeyA : Config := ⟨keyAAAA, langEn, conventionalName, 1024, modelFlash⟩

/-- The same configuration holding another API key in memory. -/
def cfgKeyB : Config := ⟨keyBBBB, langEn, conventionalName, 1024, modelFlash⟩

/-! ## Basic lemmas about the string primitives -/

theorem hasPrefixB_iff (p s : Str) : hasPrefixB p s = true ↔ p <+: s := by
  induction p generalizing s with
  | nil => simp [hasPrefixB, List.nil_prefix]
  | cons a as ih =>
    cases s with
    | nil => simp [hasPrefixB]
    | cons b bs =>
      simp only [hasPrefixB, Bool.and_eq_true, decide_eq_true_eq, ih,
        List.cons_prefix_cons]

theorem hasPrefixB_append_self (p t : Str) : hasPrefixB p (p ++ t) = true := by
  rw [hasPrefixB_iff]
  exact List.prefix_append p t

theorem hasPrefixB_nil (c : Char) (p : Str) : hasPrefixB (c :: p) [] = false := rfl

theorem trimPrefixB_append (p t : Str) : trimPrefixB (p ++ t) p = t := by
  simp [trimPrefixB, hasPrefixB_append_self, List.drop_left]

theorem hasPrefixB_false_of_isPrefix {p l l' : Str} (h : hasPrefixB p l = false)
    (hl : l' <+: l) : hasPrefixB p l' = false := by
  cases hx : hasPrefixB p l' with
  | false => rfl
  | true =>
    rw [hasPrefixB_iff] at hx
    have : hasPrefixB p l = true := (hasPrefixB_iff p l).mpr (hx.trans hl)
    rw [this] at h
    exact Bool.noConfusion h

theorem trimLeft_cons_space {c : Char} (h : isSpaceGo c = true) (s : Str) :
    trimLeft (c :: s) = trimLeft s := by
  simp [trimLeft, List.dropWhile_cons, h]

theorem trimLeft_cons_keep {c : Char} (h : isSpaceGo c = false) (s : Str) :
    trimLeft (c :: s) = c :: s := by
  simp [trimLeft, List.dropWhile_cons, h]

theorem trimSpace_cons_space {c : Char} (h : isSpaceGo c = true) (s : Str) :
    trimSpace (c :: s) = trimSpace s := by
  simp [trimSpace, trimLeft_cons_space h]

theorem trimSpace_cons_keep {c : Char} (h : isSpaceGo c = false) (s : Str) :
    trimSpace (c :: s) = trimRight (c :: s) := by
  simp [trimSpace, trimLeft_cons_keep h]

theorem trimRight_concat_space {c : Char} (h : isSpaceGo c = true) (s : Str) :
    trimRight (s ++ [c]) = trimRight s := by
  simp [trimRight, List.reverse_append, List.dropWhile_cons, h]

theorem trimRight_eq_nil_iff (l : Str) :
    trimRight l = [] ↔ ∀ c ∈ l, isSpaceGo c = true := by
  simp [trimRight, List.dropWhile_eq_nil_iff]

theorem trimLeft_eq_nil_iff (l : Str) :
    trimLeft l = [] ↔ ∀ c ∈ l, isSpaceGo c = true := by
  simp [trimLeft, List.dropWhile_eq_nil_iff]

theorem trimSpace_eq_nil_iff (l : Str) :
    trimSpace l = [] ↔ ∀ c ∈ l, isSpaceGo c = true := by
  constructor
  · intro h c hc
    have h2 : ∀ c ∈ trimLeft l, isSpaceGo c = true := (trimRight_eq_nil_iff _).mp h
    have hsplit := List.takeWhile_append_dropWhile isSpaceGo l
    rw [← hsplit] at hc
    rcases List.mem_append.mp hc with h1 | h1
    · exact List.mem_takeWhile_imp h1
    · exact h2 c h1
  · intro h
    have h1 : trimLeft l = [] := (trimLeft_eq_nil_iff l).mpr h
    rw [trimSpace, h1]
    rfl

theorem trimRight_ne_nil_of_trimSpace {l : Str} (h : trimSpace l ≠ []) :
    trimRight l ≠ [] := by
  intro hn
  exact h ((trimSpace_eq_nil_iff l).mpr ((trimRight_eq_nil_iff l).mp hn))

theorem trimRight_append {a b : Str} (h : trimRight b ≠ []) :
    trimRight (a ++ b) = a ++ trimRight b := by
  cases hx : List.dropWhile isSpaceGo b.reverse with
  | nil => exact absurd (by simp [trimRight, hx]) h
  | cons d ds =>
    simp only [trimRight, List.reverse_append, List.dropWhile_append, hx]
    simp

theorem trimRight_cons {c : Char} {l : Str} (h : trimRight l ≠ []) :
    trimRight (c :: l) = c :: trimRight l := by
  have := @trimRight_append [c] l h
  simpa using this

theorem trimRight_exists_suffix (l : Str) : ∃ t, l = trimRight l ++ t := by
  refine ⟨(l.reverse.takeWhile isSpaceGo).reverse, ?_⟩
  have hsplit := List.takeWhile_append_dropWhile isSpaceGo l.reverse
  calc l = l.reverse.reverse := (List.reverse_reverse l).symm
  _ = (List.takeWhile isSpaceGo l.reverse ++ List.dropWhile isSpaceGo l.reverse).reverse := by
        rw [hsplit]
  _ = (List.dropWhile isSpaceGo l.reverse).reverse ++
        (List.takeWhile isSpaceGo l.reverse).reverse := List.reverse_append _ _

theorem trimRight_isPrefix (l : Str) : trimRight l <+: l := by
  rcases trimRight_exists_suffix l with ⟨t, ht⟩
  exact ⟨t, ht.symm⟩

theorem mem_of_mem_trimRight {c : Char} {l : Str} (h : c ∈ trimRight l) : c ∈ l := by
  rcases trimRight_exists_suffix l with ⟨t, ht⟩
  rw [ht]
  exact List.mem_append.mpr (Or.inl h)

/-! ## Lemmas about findSplit and splitGo -/

theorem findSplit_eq_append {sep s pre post : Str}
    (h : findSplit sep s = some (pre, post)) : s = pre ++ sep ++ post := by
  induction s generalizing pre post with
  | nil => simp [findSplit] at h
  | cons c rest ih =>
    rw [findSplit] at h
    by_cases hp : hasPrefixB sep (c :: rest) = true
    · rw [if_pos hp] at h
      simp only [Option.some.injEq, Prod.mk.injEq] at h
      obtain ⟨h1, h2⟩ := h
      subst h1
      subst h2
      rw [hasPrefixB_iff] at hp
      rcases hp with ⟨t, ht⟩
      rw [← ht, List.drop_left]
      simp
    · rw [if_neg hp] at h
      cases hfs : findSplit sep rest with
      | none => rw [hfs] at h; exact absurd h (by simp)
      | some q =>
        obtain ⟨p1, p2⟩ := q
        rw [hfs] at h
        simp only [Option.some.injEq, Prod.mk.injEq] at h
        obtain ⟨h1, h2⟩ := h
        subst h1
        subst h2
        have := ih hfs
        rw [List.cons_append, List.cons_append, ← this]

theorem findSplit_cons (sep : Str) (c : Char) (t : Str) :
    findSplit sep (c :: t) =
      if hasPrefixB sep (c :: t) then some ([], (c :: t).drop sep.length)
      else (findSplit sep t).map (fun q => (c :: q.1, q.2)) := by
  rw [findSplit]
  cases hfs : findSplit sep t with
  | none => cases hp : hasPrefixB sep (c :: t) <;> simp [hp]
  | some q =>
    obtain ⟨q1, q2⟩ := q
    cases hp : hasPrefixB sep (c :: t) <;> simp [hp]

theorem findSplit_cons_none_iff {sep : Str} {c : Char} {t : Str} :
    findSplit sep (c :: t) = none ↔
      hasPrefixB sep (c :: t) = false ∧ findSplit sep t = none := by
  rw [findSplit_cons]
  cases hp : hasPrefixB sep (c :: t) <;> cases hfs : findSplit sep t <;> simp [hp, hfs]

theorem findSplit_self_append {sep : Str} (hsep : sep ≠ []) (rest : Str) :
    findSplit sep (sep ++ rest) = some ([], rest) := by
  cases sep with
  | nil => exact absurd rfl hsep
  | cons c s' =>
    rw [List.cons_append, findSplit_cons, if_pos]
    · have h1 : (c :: (s' ++ rest)) = (c :: s') ++ rest := by simp
      rw [h1, List.drop_left]
    · have := hasPrefixB_append_self (c :: s') rest
      rwa [List.cons_append] at this

theorem length_lt_of_findSplit {sep s pre post : Str} (hsep : sep ≠ [])
    (h : findSplit sep s = some (pre, post)) : post.length < s.length := by
  have he := findSplit_eq_append h
  have hpos : 0 < sep.length := List.length_pos.mpr hsep
  rw [he]
  simp only [List.length_append]
  omega

theorem splitF_fuel {sep : Str} (hsep : sep ≠ []) :
    ∀ f1 f2 s, s.length < f1 → s.length < f2 → splitF sep f1 s = splitF sep f2 s := by
  intro f1
  induction f1 with
  | zero => intro f2 s h1 _; exact absurd h1 (Nat.not_lt_zero _)
  | succ f ih =>
    intro f2 s h1 h2
    cases f2 with
    | zero => exact absurd h2 (Nat.not_lt_zero _)
    | succ f2' =>
      simp only [splitF]
      cases hfs : findSplit sep s with
      | none => rfl
      | some q =>
        obtain ⟨pre, post⟩ := q
        have hlt := length_lt_of_findSplit hsep hfs
        have e := ih f2' post (by omega) (by omega)
        simp only [hfs]
        exact congrArg (fun l => pre :: l) e

theorem splitGo_eq_single {sep s : Str} (h : findSplit sep s = none) :
    splitGo sep s = [s] := by
  by_cases hsep : sep = []
  · simp [splitGo, hsep]
  · simp [splitGo, hsep, splitF, h]

theorem splitGo_eq_cons {sep s pre post : Str} (hsep : sep ≠ [])
    (h : findSplit sep s = some (pre, post)) :
    splitGo sep s = pre :: splitGo sep post := by
  have hlt := length_lt_of_findSplit hsep h
  simp only [splitGo, if_neg hsep, splitF, h]
  exact congrArg (pre :: ·) (splitF_fuel hsep s.length (post.length + 1) post hlt (Nat.lt_succ_self _))

theorem splitGo_cons_char {sep : Str} {c : Char} {s : Str}
    (h : hasPrefixB sep (c :: s) = false) :
    splitGo sep (c :: s) = (splitGo sep s).modifyHead (c :: ·) := by
  have hsep : sep ≠ [] := by
    intro he
    subst he
    simp [hasPrefixB] at h
  cases hfs : findSplit sep s with
  | none =>
    have h1 : findSplit sep (c :: s) = none := findSplit_cons_none_iff.mpr ⟨h, hfs⟩
    rw [splitGo_eq_single h1, splitGo_eq_single hfs]
    rfl
  | some q =>
    obtain ⟨pre, post⟩ := q
    have h1 : findSplit sep (c :: s) = some (c :: pre, post) := by
      rw [findSplit_cons, if_neg (by simp [h]), hfs]
      rfl
    rw [splitGo_eq_cons hsep h1, splitGo_eq_cons hsep hfs]
    rfl

theorem splitGo_ne_nil (sep s : Str) : splitGo sep s ≠ [] := by
  by_cases hsep : sep = []
  · simp [splitGo, hsep]
  · cases hfs : findSplit sep s with
    | none => rw [splitGo_eq_single hfs]; simp
    | some q =>
      obtain ⟨pre, post⟩ := q
      rw [splitGo_eq_cons hsep hfs]
      simp

/-! ## Lemmas about single-character separators -/

theorem findSplit1_none {c : Char} {x : Str} (h : c ∉ x) : findSplit [c] x = none := by
  induction x with
  | nil => rfl
  | cons d t ih =>
    rw [findSplit_cons_none_iff]
    refine ⟨?_, ih (fun hm => h (List.mem_cons_of_mem d hm))⟩
    have hcd : c ≠ d := fun he => h (he ▸ List.mem_cons_self d t)
    simp [hasPrefixB, hcd]

theorem findSplit1_middle {c : Char} {x : Str} (rest : Str) (h : c ∉ x) :
    findSplit [c] (x ++ c :: rest) = some (x, rest) := by
  induction x with
  | nil =>
    rw [List.nil_append, findSplit_cons, if_pos (by simp [hasPrefixB])]
    simp
  | cons d t ih =>
    have hcd : c ≠ d := fun he => h (he ▸ List.mem_cons_self d t)
    rw [List.cons_append, findSplit_cons, if_neg (by simp [hasPrefixB, hcd]),
      ih (fun hm => h (List.mem_cons_of_mem d hm))]
    rfl

theorem splitGo1_middle {c : Char} {x : Str} (rest : Str) (h : c ∉ x) :
    splitGo [c] (x ++ c :: rest) = x :: splitGo [c] rest :=
  splitGo_eq_cons (by simp) (findSplit1_middle rest h)

theorem splitGo1_single {c : Char} {x : Str} (h : c ∉ x) : splitGo [c] x = [x] :=
  splitGo_eq_single (findSplit1_none h)

theorem joinGo_cons (sep x : Str) {y : Str} {ys : List Str} :
    joinGo sep (x :: y :: ys) = x ++ sep ++ joinGo sep (y :: ys) := rfl

theorem splitGo_joinGo {c : Char} {parts : List Str} (hne : parts ≠ [])
    (h : ∀ p ∈ parts, c ∉ p) : splitGo [c] (joinGo [c] parts) = parts := by
  induction parts with
  | nil => exact absurd rfl hne
  | cons x xs ih =>
    cases xs with
    | nil => exact splitGo1_single (h x (List.mem_cons_self x []))
    | cons y ys =>
      rw [joinGo_cons]
      have h1 : x ++ [c] ++ joinGo [c] (y :: ys) = x ++ c :: joinGo [c] (y :: ys) := by
        simp
      rw [h1, splitGo1_middle _ (h x (List.mem_cons_self x (y :: ys))),
        ih (by simp) (fun p hp => h p (List.mem_cons_of_mem x hp))]

/-! ## Lemmas about the `---` separator -/

theorem sep3_eq : sep3 = ['-', '-', '-'] := by decide

theorem findSplit3_ne_none {s : Str} (h : hasPrefixB sep3 s = true) :
    findSplit sep3 s ≠ none := by
  cases s with
  | nil => rw [sep3_eq] at h; exact absurd h (by simp [hasPrefixB])
  | cons c t =>
    intro hn
    rw [findSplit_cons_none_iff] at hn
    rw [hn.1] at h
    exact Bool.noConfusion h

theorem findSplit3_append_none {a b : Str} (ha : findSplit sep3 a = none)
    (hb : findSplit sep3 b = none)
    (hab : a.getLast? ≠ some '-' ∨ b.head? ≠ some '-') :
    findSplit sep3 (a ++ b) = none := by
  induction a with
  | nil => simpa using hb
  | cons c a' ih =>
    rw [findSplit_cons_none_iff] at ha
    obtain ⟨hp, ha'⟩ := ha
    rw [List.cons_append, findSplit_cons_none_iff]
    constructor
    · cases hq : hasPrefixB sep3 (c :: (a' ++ b)) with
      | false => rfl
      | true =>
        exfalso
        rw [sep3_eq] at hq hp
        simp only [hasPrefixB, Bool.and_eq_true, decide_eq_true_eq] at hq
        obtain ⟨hc, hq⟩ := hq
        subst hc
        cases a' with
        | nil =>
          have hq2 : hasPrefixB ['-', '-'] b = true := by simpa using hq
          cases b with
          | nil => simp [hasPrefixB] at hq2
          | cons d bs =>
            simp only [hasPrefixB, Bool.and_eq_true, decide_eq_true_eq] at hq2
            rcases hab with h1 | h1
            · exact h1 (by simp)
            · exact h1 (by simp [← hq2.1])
        | cons d a'' =>
          simp only [List.cons_append, hasPrefixB, Bool.and_eq_true,
            decide_eq_true_eq] at hq
          obtain ⟨hd, hq⟩ := hq
          subst hd
          cases a'' with
          | nil =>
            have hq2 : hasPrefixB ['-'] b = true := by simpa using hq
            cases b with
            | nil => simp [hasPrefixB] at hq2
            | cons e bs =>
              simp only [hasPrefixB, Bool.and_eq_true, decide_eq_true_eq] at hq2
              rcases hab with h1 | h1
              · exact h1 (by simp)
              · exact h1 (by simp [← hq2.1])
          | cons e a''' =>
            simp only [List.cons_append, hasPrefixB, Bool.and_eq_true,
              decide_eq_true_eq] at hq
            obtain ⟨he, _⟩ := hq
            subst he
            simp [hasPrefixB] at hp
    · apply ih ha'
      rcases hab with h1 | h1
      · cases a' with
        | nil => exact Or.inl (by simp)
        | cons d a'' =>
          rw [List.getLast?_cons_cons] at h1
          exact Or.inl h1
      · exact Or.inr h1

theorem findSplit3_middle {x : Str} (rest : Str) (hx : findSplit sep3 x = none)
    (hlast : x.getLast? ≠ some '-') :
    findSplit sep3 (x ++ sep3 ++ rest) = some (x, rest) := by
  induction x with
  | nil =>
    have h := @findSplit_self_append sep3 (by rw [sep3_eq]; simp) rest
    simpa using h
  | cons c x' ih =>
    rw [findSplit_cons_none_iff] at hx
    obtain ⟨hp, hx'⟩ := hx
    have hlast' : x'.getLast? ≠ some '-' := by
      cases x' with
      | nil => simp
      | cons d x'' =>
        rw [List.getLast?_cons_cons] at hlast
        exact hlast
    have hnp : ¬ hasPrefixB sep3 (c :: (x' ++ sep3 ++ rest)) = true := by
      intro hq
      rw [sep3_eq] at hq hp
      simp only [hasPrefixB, Bool.and_eq_true, decide_eq_true_eq] at hq
      obtain ⟨hc, hq⟩ := hq
      subst hc
      cases x' with
      | nil => exact hlast (by simp)
      | cons d x'' =>
        simp only [List.cons_append, List.append_assoc, hasPrefixB, Bool.and_eq_true,
          decide_eq_true_eq] at hq
        obtain ⟨hd, hq⟩ := hq
        subst hd
        cases x'' with
        | nil => exact hlast (by simp)
        | cons e x''' =>
          simp only [List.cons_append, hasPrefixB, Bool.and_eq_true,
            decide_eq_true_eq] at hq
          obtain ⟨he, _⟩ := hq
          subst he
          simp [hasPrefixB] at hp
    have hassoc : (c :: x') ++ sep3 ++ rest = c :: (x' ++ sep3 ++ rest) := by simp
    rw [hassoc, findSplit_cons, if_neg hnp, ih hx' hlast']
    rfl

theorem splitGo3_middle {x : Str} (rest : Str) (hx : findSplit sep3 x = none)
    (hlast : x.getLast? ≠ some '-') :
    splitGo sep3 (x ++ sep3 ++ rest) = x :: splitGo sep3 rest :=
  splitGo_eq_cons (by rw [sep3_eq]; simp) (findSplit3_middle rest hx hlast)


/-! ## Lemmas about the association-list map model -/

theorem filter_ne_of_not_mem {m : List (Str × Str)} {k : Str}
    (h : k ∉ m.map Prod.fst) : m.filter (fun e => !(e.1 == k)) = m := by
  rw [List.filter_eq_self]
  intro e he
  have hek : e.1 ≠ k := by
    intro hk
    exact h (hk ▸ List.mem_map_of_mem Prod.fst he)
  simp [hek]

theorem find?_filter_ne (m : List (Str × Str)) (k k2 : Str) (hk : k2 ≠ k) :
    List.find? (fun e => e.1 == k2) (m.filter (fun e => !(e.1 == k))) =
      List.find? (fun e => e.1 == k2) m := by
  induction m with
  | nil => rfl
  | cons e es ih =>
    rw [List.filter_cons]
    by_cases he : e.1 = k
    · rw [if_neg (by simp [he]), ih,
        List.find?_cons_of_neg _ (by simp [he]; exact fun h => hk h.symm)]
    · rw [if_pos (by simp [he])]
      by_cases he2 : e.1 = k2
      · rw [List.find?_cons_of_pos _ (by simp [he2]),
          List.find?_cons_of_pos _ (by simp [he2])]
      · rw [List.find?_cons_of_neg _ (by simp [he2]),
          List.find?_cons_of_neg _ (by simp [he2]), ih]

theorem lookupA_mapInsert (m : List (Str × Str)) (k v k2 : Str) :
    lookupA (mapInsert m k v) k2 = if k2 = k then some v else lookupA m k2 := by
  simp only [lookupA, mapInsert, List.find?_append]
  by_cases hk : k2 = k
  · subst hk
    have h1 : List.find? (fun e => e.1 == k2) (m.filter (fun e => !(e.1 == k2))) = none := by
      rw [List.find?_eq_none]
      intro e he
      have h2 := (List.mem_filter.mp he).2
      simpa using h2
    rw [h1, if_pos rfl]
    rw [List.find?_cons_of_pos _ (by simp)]
    rfl
  · rw [if_neg hk]
    have h2 : List.find? (fun e => e.1 == k2) [(k, v)] = none := by
      rw [List.find?_cons_of_neg]
      · rfl
      · simp
        exact fun h => hk h.symm
    rw [h2, Option.or_none, find?_filter_ne m k k2 hk]

theorem mapInsert_fresh {m : List (Str × Str)} {e : Str × Str}
    (h : e.1 ∉ m.map Prod.fst) : mapInsert m e.1 e.2 = m ++ [e] := by
  unfold mapInsert
  rw [filter_ne_of_not_mem h, Prod.mk.eta]

theorem foldl_mapInsert_append (es : List (Str × Str)) :
    ∀ m, (es.map Prod.fst).Nodup → (∀ k ∈ m.map Prod.fst, k ∉ es.map Prod.fst) →
      es.foldl (fun m e => mapInsert m e.1 e.2) m = m ++ es := by
  induction es with
  | nil => intro m _ _; simp
  | cons e es ih =>
    intro m hnd hdisj
    simp only [List.foldl_cons]
    have hkey : e.1 ∉ m.map Prod.fst := by
      intro hm
      exact hdisj e.1 hm (by simp)
    rw [mapInsert_fresh hkey]
    rw [List.map_cons, List.nodup_cons] at hnd
    rw [ih (m ++ [e]) hnd.2 ?disj]
    · simp
    case disj =>
      intro k hkm
      rw [List.map_append] at hkm
      rcases List.mem_append.mp hkm with h1 | h1
      · intro hke
        exact hdisj k h1 (List.mem_cons_of_mem _ hke)
      · simp only [List.map_cons, List.map_nil, List.mem_singleton] at h1
        subst h1
        exact hnd.1

theorem foldl_granStep_filterMap (l : List Str) :
    ∀ init, l.foldl granStep init =
      (l.filterMap parseBlock).foldl (fun m e => mapInsert m e.1 e.2) init := by
  induction l with
  | nil => intro init; rfl
  | cons x xs ih =>
    intro init
    simp only [List.foldl_cons, List.filterMap_cons]
    cases hf : parseBlock x with
    | none =>
      rw [show granStep init x = init from by unfold granStep; rw [hf]]
      exact ih init
    | some e =>
      rw [show granStep init x = mapInsert init e.1 e.2 from by unfold granStep; rw [hf]]
      simp only [List.foldl_cons]
      exact ih (mapInsert init e.1 e.2)

theorem foldl_mapInsert_lookup (es : List (Str × Str)) :
    ∀ (m : List (Str × Str)) (k : Str),
      lookupA (es.foldl (fun m e => mapInsert m e.1 e.2) m) k =
        match (es.filter (fun e => e.1 == k)).getLast? with
        | some e => some e.2
        | none => lookupA m k := by
  induction es with
  | nil => intro m k; rfl
  | cons e es ih =>
    intro m k
    simp only [List.foldl_cons, List.filter_cons]
    by_cases hek : e.1 = k
    · rw [if_pos (by simp [hek]), ih]
      cases hfil : es.filter (fun e => e.1 == k) with
      | nil =>
        show lookupA (mapInsert m e.1 e.2) k = some e.2
        rw [lookupA_mapInsert, if_pos hek.symm]
      | cons f fs =>
        rw [List.getLast?_cons_cons]
        cases hg : (f :: fs).getLast? with
        | none =>
          rw [List.getLast?_eq_none_iff] at hg
          exact absurd hg (by simp)
        | some g => rfl
    · rw [if_neg (by simp [hek]), ih]
      cases hfil : es.filter (fun e => e.1 == k) with
      | nil =>
        show lookupA (mapInsert m e.1 e.2) k = lookupA m k
        rw [lookupA_mapInsert, if_neg (fun h => hek h.symm)]
      | cons f fs =>
        cases hg : (f :: fs).getLast? with
        | none =>
          rw [List.getLast?_eq_none_iff] at hg
          exact absurd hg (by simp)
        | some g => rfl

theorem lookup_fold_const (cs : List FileChange) (v : Str) :
    ∀ (m : List (Str × Str)) (p : Str),
      (p ∈ cs.map FileChange.path ∨ lookupA m p = some v) →
      lookupA (cs.foldl (fun m c => mapInsert m c.path v) m) p = some v := by
  induction cs with
  | nil =>
    intro m p h
    rcases h with h | h
    · simp at h
    · simpa using h
  | cons c cs ih =>
    intro m p h
    simp only [List.foldl_cons]
    apply ih
    by_cases hp : p = c.path
    · right
      rw [lookupA_mapInsert, if_pos hp]
    · rcases h with h | h
      · simp only [List.map_cons, List.mem_cons] at h
        rcases h with h | h
        · exact absurd h hp
        · left
          exact h
      · right
        rw [lookupA_mapInsert, if_neg hp]
        exact h

/-! ## Splitting a conforming raw reply into its record fragments -/

theorem nl_eq : nl = [nlc] := by decide

theorem fileMarkerSp_decomp : fileMarkerSp = fileMarker ++ [' '] := by decide

theorem msgHeaderBlock_decomp : msgHeaderBlock = nlc :: (msgMarker ++ [nlc]) := by decide

theorem findSplit3_nl_cons {j : Str} (h : findSplit sep3 j = none) :
    findSplit sep3 (nlc :: j) = none := by
  rw [findSplit_cons_none_iff]
  exact ⟨rfl, h⟩

theorem findSplit3_joinGo_nl {Ls : List Str} (h : ∀ l ∈ Ls, findSplit sep3 l = none) :
    findSplit sep3 (joinGo nl Ls) = none := by
  induction Ls with
  | nil => rfl
  | cons x xs ih =>
    cases xs with
    | nil => exact h x (List.mem_cons_self x [])
    | cons y ys =>
      rw [joinGo_cons, nl_eq, List.append_assoc, List.singleton_append]
      have hj : findSplit sep3 (nlc :: joinGo nl (y :: ys)) = none :=
        findSplit3_nl_cons (ih (fun l hl => h l (List.mem_cons_of_mem x hl)))
      exact findSplit3_append_none (h x (List.mem_cons_self x (y :: ys)))
        hj (Or.inr (by simp; decide))

theorem findSplit3_recordText {r : GranRecord} (h : recordOK r) :
    findSplit sep3 (recordText r) = none := by
  obtain ⟨_, _, hpath, _, hlines⟩ := h
  have hjoin : findSplit sep3 (joinGo nl r.msgLines) = none :=
    findSplit3_joinGo_nl (fun l hl => (hlines l hl).2.2.1)
  rw [recordText, List.append_assoc, List.append_assoc, List.append_assoc]
  apply findSplit3_append_none (by decide) ?rest (Or.inl (by decide))
  case rest =>
    apply findSplit3_append_none hpath ?rest2 ?hd
    case hd =>
      rw [msgHeaderBlock_decomp]
      refine Or.inr ?_
      simp
      decide
    case rest2 =>
      apply findSplit3_append_none (by decide) ?rest3 (Or.inl (by decide))
      case rest3 =>
        exact findSplit3_append_none hjoin (by decide) (Or.inr (by decide))

theorem recordText_getLast (r : GranRecord) : (recordText r).getLast? = some nlc := by
  rw [recordText, nl_eq, List.getLast?_concat]

theorem splitRawOf : ∀ (r : GranRecord) (rs : List GranRecord), recordOK r →
    (∀ x ∈ rs, recordOK x) →
    splitGo sep3 (rawOfRecords (r :: rs)) = recordText r :: tfrags rs := by
  intro r rs
  induction rs generalizing r with
  | nil =>
    intro hr _
    have h1 : rawOfRecords [r] = recordText r ++ sep3 ++ [] := by
      simp [rawOfRecords, joinGo]
    rw [h1, splitGo3_middle [] (findSplit3_recordText hr)
      (by rw [recordText_getLast r]; decide)]
    rw [splitGo_eq_single (by rfl)]
    rfl
  | cons r2 rs ih =>
    intro hr hok
    have h1 : rawOfRecords (r :: r2 :: rs) =
        recordText r ++ sep3 ++ (nlc :: rawOfRecords (r2 :: rs)) := by
      simp only [rawOfRecords, List.map_cons, joinGo_cons, nl_eq]
      simp [List.append_assoc]
    rw [h1, splitGo3_middle _ (findSplit3_recordText hr)
      (by rw [recordText_getLast r]; decide)]
    rw [splitGo_cons_char
      (show hasPrefixB sep3 (nlc :: rawOfRecords (r2 :: rs)) = false from rfl)]
    rw [ih r2 (hok r2 (List.mem_cons_self r2 rs)) (fun x hx => hok x (List.mem_cons_of_mem r2 hx))]
    rfl

/-! ## Parsing one conforming record fragment -/

theorem modLast_cons_cons (x y : Str) (ys : List Str) :
    modLast (x :: y :: ys) = x :: modLast (y :: ys) := rfl

theorem modLast_ne_nil {Ls : List Str} (h : Ls ≠ []) : modLast Ls ≠ [] := by
  cases Ls with
  | nil => exact absurd rfl h
  | cons x xs => cases xs <;> simp [modLast]

theorem modLast_mem {p : Str} {Ls : List Str} (h : p ∈ modLast Ls) :
    ∃ l ∈ Ls, p = l ∨ p = trimRight l := by
  induction Ls with
  | nil => simp [modLast] at h
  | cons x xs ih =>
    cases xs with
    | nil =>
      simp [modLast] at h
      exact ⟨x, by simp, Or.inr h⟩
    | cons y ys =>
      rw [modLast_cons_cons] at h
      rcases List.mem_cons.mp h with h | h
      · exact ⟨x, by simp, Or.inl h⟩
      · rcases ih h with ⟨l, hl, hp⟩
        exact ⟨l, List.mem_cons_of_mem x hl, hp⟩

theorem trimRight_joinGo {Ls : List Str} (hne : Ls ≠ [])
    (h : ∀ l ∈ Ls, trimSpace l ≠ []) :
    trimRight (joinGo nl Ls) = joinGo nl (modLast Ls) ∧ trimRight (joinGo nl Ls) ≠ [] := by
  induction Ls with
  | nil => exact absurd rfl hne
  | cons x xs ih =>
    cases xs with
    | nil =>
      refine ⟨by simp [joinGo, modLast], ?_⟩
      exact trimRight_ne_nil_of_trimSpace (h x (by simp))
    | cons y ys =>
      have ihy := ih (by simp) (fun l hl => h l (List.mem_cons_of_mem x hl))
      have hxy : joinGo nl (x :: y :: ys) = x ++ (nlc :: joinGo nl (y :: ys)) := by
        rw [joinGo_cons, nl_eq]
        simp
      have h2 : trimRight (nlc :: joinGo nl (y :: ys)) =
          nlc :: trimRight (joinGo nl (y :: ys)) := trimRight_cons ihy.2
      have h3 : trimRight (nlc :: joinGo nl (y :: ys)) ≠ [] := by
        rw [h2]
        simp
      constructor
      · rw [hxy, trimRight_append h3, h2, ihy.1, modLast_cons_cons]
        cases hmm : modLast (y :: ys) with
        | nil => exact absurd hmm (modLast_ne_nil (by simp))
        | cons z zs =>
          rw [joinGo_cons, nl_eq]
          simp
      · rw [hxy, trimRight_append h3, h2]
        simp

theorem trimRight_append_nl (s : Str) : trimRight (s ++ nl) = trimRight s := by
  rw [nl_eq]
  exact trimRight_concat_space (by decide) s

theorem trimSpace_recordText {r : GranRecord} (h : recordOK r) :
    trimSpace (recordText r) =
      fileMarkerSp ++ r.path ++ msgHeaderBlock ++ joinGo nl (modLast r.msgLines) := by
  obtain ⟨hp, hpn, hps, hmne, hlines⟩ := h
  have hjoin := trimRight_joinGo hmne (fun l hl => (hlines l hl).1)
  have h1 : trimLeft (recordText r) = recordText r := by
    have hf : recordText r = 'F' :: ("ILE: ".toList ++ r.path ++ msgHeaderBlock ++
        joinGo nl r.msgLines ++ nl) := by
      rw [recordText, show fileMarkerSp = 'F' :: "ILE: ".toList from by decide]
      simp
    rw [hf, trimLeft_cons_keep (by decide), ← hf]
  rw [trimSpace, h1, recordText, trimRight_append_nl,
    trimRight_append hjoin.2, hjoin.1]

theorem lines_recordText {r : GranRecord} (h : recordOK r) :
    splitGo nl (trimSpace (recordText r)) =
      (fileMarkerSp ++ r.path) :: msgMarker :: modLast r.msgLines := by
  obtain ⟨hp, hpn, hps, hmne, hlines⟩ := h
  rw [trimSpace_recordText ⟨hp, hpn, hps, hmne, hlines⟩]
  have hshape : fileMarkerSp ++ r.path ++ msgHeaderBlock ++ joinGo nl (modLast r.msgLines) =
      (fileMarkerSp ++ r.path) ++
        nlc :: (msgMarker ++ nlc :: joinGo nl (modLast r.msgLines)) := by
    rw [msgHeaderBlock_decomp]
    simp [List.append_assoc]
  have hnf : nlc ∉ fileMarkerSp ++ r.path := by
    intro hmem
    rcases List.mem_append.mp hmem with h1 | h1
    · exact absurd h1 (by decide)
    · exact hpn h1
  have hjoinsplit : splitGo [nlc] (joinGo [nlc] (modLast r.msgLines)) = modLast r.msgLines := by
    apply splitGo_joinGo (modLast_ne_nil hmne)
    intro p hp'
    rcases modLast_mem hp' with ⟨l, hl, hpe | hpe⟩
    · subst hpe
      exact (hlines _ hl).2.1
    · subst hpe
      intro hmem
      exact (hlines l hl).2.1 (mem_of_mem_trimRight hmem)
  rw [hshape, nl_eq, splitGo1_middle _ hnf, splitGo1_middle _ (by decide), hjoinsplit]

theorem processLine_fileLine (st : BlockState) (p : Str) :
    processLine st (fileMarkerSp ++ p) = ⟨trimSpace p, st.message, false⟩ := by
  have h1 : fileMarkerSp ++ p = fileMarker ++ (' ' :: p) := by
    rw [fileMarkerSp_decomp]
    simp
  unfold processLine
  rw [h1, if_pos (hasPrefixB_append_self _ _), trimPrefixB_append,
    trimSpace_cons_space (by decide)]

theorem processLine_msgMarkerLine (st : BlockState) :
    processLine st msgMarker = ⟨st.filePath, st.message, true⟩ := by
  unfold processLine
  rw [if_neg (by decide), if_pos (by decide),
    show trimSpace (trimPrefixB msgMarker msgMarker) = [] from by decide]
  simp

theorem foldMsgLines : ∀ (ls : List Str) (st : BlockState), st.inMessage = true →
    (∀ l ∈ ls, hasPrefixB fileMarker l = false ∧ hasPrefixB msgMarker l = false) →
    ls.foldl processLine st = ⟨st.filePath, msgAcc st.message ls, true⟩ := by
  intro ls
  induction ls with
  | nil =>
    intro st hst _
    simp only [List.foldl_nil, msgAcc]
    cases st
    simp_all
  | cons l ls ih =>
    intro st hst hok
    obtain ⟨fp, m, im⟩ := st
    simp only at hst
    subst hst
    have hl := hok l (List.mem_cons_self l ls)
    have hstep : processLine ⟨fp, m, true⟩ l =
        ⟨fp, if m = [] then l else m ++ nlc :: l, true⟩ := by
      unfold processLine
      rw [if_neg (by simp [hl.1]), if_neg (by simp [hl.2]), if_pos rfl]
    rw [List.foldl_cons, hstep,
      ih _ rfl (fun l2 hl2 => hok l2 (List.mem_cons_of_mem l hl2))]
    rfl

theorem blockFold_recordText {r : GranRecord} (h : recordOK r) :
    blockFold (recordText r) = ⟨trimSpace r.path, msgAcc [] (modLast r.msgLines), true⟩ := by
  obtain ⟨hp, hpn, hps, hmne, hlines⟩ := h
  rw [blockFold, lines_recordText ⟨hp, hpn, hps, hmne, hlines⟩, List.foldl_cons,
    processLine_fileLine, List.foldl_cons, processLine_msgMarkerLine,
    foldMsgLines _ _ rfl ?cond]
  case cond =>
    intro l hl
    rcases modLast_mem hl with ⟨l0, hl0, hpe | hpe⟩
    · subst hpe
      exact ⟨(hlines _ hl0).2.2.2.1, (hlines _ hl0).2.2.2.2⟩
    · subst hpe
      constructor
      · exact hasPrefixB_false_of_isPrefix (hlines l0 hl0).2.2.2.1 (trimRight_isPrefix l0)
      · exact hasPrefixB_false_of_isPrefix (hlines l0 hl0).2.2.2.2 (trimRight_isPrefix l0)

theorem msgAcc_ne_nil_of_ne {m : Str} (hm : m ≠ []) : ∀ ls, msgAcc m ls ≠ [] := by
  intro ls
  induction ls generalizing m with
  | nil => exact hm
  | cons l ls ih =>
    simp only [msgAcc]
    rw [if_neg hm]
    exact ih (by simp)

theorem msgAcc_nil_cons (l : Str) (ls : List Str) : msgAcc [] (l :: ls) = msgAcc l ls := by
  simp [msgAcc]

theorem modLast_head_ne {Ls : List Str} (hne : Ls ≠ [])
    (h : ∀ l ∈ Ls, trimSpace l ≠ []) :
    ∃ l0 ls2, modLast Ls = l0 :: ls2 ∧ l0 ≠ [] := by
  cases Ls with
  | nil => exact absurd rfl hne
  | cons x xs =>
    cases xs with
    | nil =>
      refine ⟨trimRight x, [], rfl, ?_⟩
      exact trimRight_ne_nil_of_trimSpace (h x (by simp))
    | cons y ys =>
      refine ⟨x, modLast (y :: ys), rfl, ?_⟩
      intro hx
      exact (h x (by simp)) (by rw [hx]; rfl)

theorem parseBlock_recordText {r : GranRecord} (h : recordOK r) :
    parseBlock (recordText r) =
      some (trimSpace r.path, trimSpace (msgAcc [] (modLast r.msgLines))) := by
  obtain ⟨hp, hpn, hps, hmne, hlines⟩ := h
  have hbf := blockFold_recordText ⟨hp, hpn, hps, hmne, hlines⟩
  have hfsp : fileMarkerSp.length = 6 := by decide
  have htne : trimSpace (recordText r) ≠ [] := by
    rw [trimSpace_recordText ⟨hp, hpn, hps, hmne, hlines⟩]
    intro hx
    have hlen := congrArg List.length hx
    simp only [List.length_append, List.length_nil] at hlen
    omega
  have hmsg : msgAcc [] (modLast r.msgLines) ≠ [] := by
    rcases modLast_head_ne hmne (fun l hl => (hlines l hl).1) with ⟨l0, ls2, hml, hl0⟩
    rw [hml, msgAcc_nil_cons]
    exact msgAcc_ne_nil_of_ne hl0 ls2
  unfold parseBlock
  rw [if_neg htne, hbf, if_pos ⟨hp, hmsg⟩]

theorem parseBlock_cons_nl (b : Str) : parseBlock (nlc :: b) = parseBlock b := by
  unfold parseBlock blockFold
  rw [trimSpace_cons_space (by decide)]

theorem parseBlock_nil : parseBlock [] = none := rfl

theorem tfrags_keys : ∀ (rs : List GranRecord), (∀ x ∈ rs, recordOK x) →
    ((tfrags rs).filterMap parseBlock).map Prod.fst =
      rs.map (fun x => trimSpace x.path) := by
  intro rs
  induction rs with
  | nil =>
    intro _
    simp [tfrags, List.filterMap_cons, parseBlock_nil]
  | cons r rs ih =>
    intro hok
    have hstep : (tfrags (r :: rs)).filterMap parseBlock =
        (trimSpace r.path, trimSpace (msgAcc [] (modLast r.msgLines))) ::
          (tfrags rs).filterMap parseBlock := by
      rw [show tfrags (r :: rs) = (nlc :: recordText r) :: tfrags rs from rfl,
        List.filterMap_cons, parseBlock_cons_nl,
        parseBlock_recordText (hok r (by simp))]
    rw [hstep, List.map_cons, ih (fun x hx => hok x (List.mem_cons_of_mem r hx)),
      List.map_cons]

/-! ## The granular parse as a whole -/

theorem granularEntries_eq (raw : Str) :
    granularEntries raw =
      ((splitGo sep3 raw).filterMap parseBlock).foldl
        (fun m e => mapInsert m e.1 e.2) [] := by
  unfold granularEntries
  exact foldl_granStep_filterMap _ []

theorem recordFrags_keys (r : GranRecord) (rs : List GranRecord)
    (hok : ∀ x ∈ r :: rs, recordOK x) :
    ((recordText r :: tfrags rs).filterMap parseBlock).map Prod.fst =
      (r :: rs).map (fun x => trimSpace x.path) := by
  have hstep : (recordText r :: tfrags rs).filterMap parseBlock =
      (trimSpace r.path, trimSpace (msgAcc [] (modLast r.msgLines))) ::
        (tfrags rs).filterMap parseBlock := by
    rw [List.filterMap_cons, parseBlock_recordText (hok r (by simp))]
  rw [hstep, List.map_cons, tfrags_keys rs (fun x hx => hok x (List.mem_cons_of_mem r hx)),
    List.map_cons]

/-! ## Claim theorems -/

/-- C1: for every non-empty raw text conforming to the granular record
grammar (blocks of a `FILE: <path>` line, a `MESSAGE:` line and one or more
message lines, each block followed by a `---` delimiter line) with distinct
trimmed file paths, `parseCommitResponse` in granular mode returns a mapping
with exactly one entry per block, keyed by the exact trimmed path text of
each block, whatever the change list. -/
theorem granular_grammar_roundtrip (rs : List GranRecord) (changes : List FileChange)
    (hne : rs ≠ []) (hok : ∀ r ∈ rs, recordOK r)
    (hdist : (rs.map (fun r => trimSpace r.path)).Nodup) :
    (parseCommitResponse (rawOfRecords rs) changes true).map Prod.fst =
      rs.map (fun r => trimSpace r.path) ∧
    (parseCommitResponse (rawOfRecords rs) changes true).length = rs.length := by
  obtain ⟨r, rs', rfl⟩ : ∃ r rs', rs = r :: rs' := by
    cases rs with
    | nil => exact absurd rfl hne
    | cons r rs' => exact ⟨r, rs', rfl⟩
  have hsplit := splitRawOf r rs' (hok r (by simp))
    (fun x hx => hok x (List.mem_cons_of_mem r hx))
  have hkeys := recordFrags_keys r rs' hok
  have hge : granularEntries (rawOfRecords (r :: rs')) =
      (recordText r :: tfrags rs').filterMap parseBlock := by
    rw [granularEntries_eq, hsplit]
    have hfold := foldl_mapInsert_append ((recordText r :: tfrags rs').filterMap parseBlock)
      [] (by rw [hkeys]; exact hdist) (by simp)
    simpa using hfold
  have hne2 : granularEntries (rawOfRecords (r :: rs')) ≠ [] := by
    rw [hge]
    intro hnil
    have hlen := congrArg (List.map Prod.fst) hnil
    rw [hkeys] at hlen
    simp at hlen
  have hpr : parseCommitResponse (rawOfRecords (r :: rs')) changes true =
      granularEntries (rawOfRecords (r :: rs')) := by
    unfold parseCommitResponse
    rw [if_neg (by simp), if_neg (by intro hand; exact hne2 hand.1)]
  refine ⟨by rw [hpr, hge, hkeys], ?_⟩
  rw [hpr, hge]
  have hlen := congrArg List.length hkeys
  simpa using hlen

/-- Witness for C1 at spec scenario 1: the two-record raw text is exactly the
scenario string, parsing it yields exactly the two scenario entries, and the
keys are the trimmed record paths as the theorem states. -/
theorem granular_grammar_roundtrip_witness :
    rawOfRecords rsScenario1 = scenario1Raw ∧
    parseCommitResponse scenario1Raw [] true = [(pathAGo, msgFixBug), (pathBGo, msgFeatX)] ∧
    (parseCommitResponse (rawOfRecords rsScenario1) [] true).map Prod.fst =
      rsScenario1.map (fun r => trimSpace r.path) :=
  ⟨by decide, by decide,
    (granular_grammar_roundtrip rsScenario1 [] (by simp [rsScenario1]) (by decide)
      (by decide)).1⟩

/-- C2: whenever the granular block scan captures no entry at all and the
change list is non-empty, parseCommitResponse silently maps every change
path to the entire whitespace-trimmed raw reply. -/
theorem granular_fallback_uniform (raw : Str) (changes : List FileChange)
    (hraw : granularEntries raw = []) (hch : changes ≠ []) :
    ∀ c ∈ changes, lookupA (parseCommitResponse raw changes true) c.path =
      some (trimSpace raw) := by
  intro c hc
  have hpr : parseCommitResponse raw changes true =
      changes.foldl (fun m c => mapInsert m c.path (trimSpace raw)) [] := by
    unfold parseCommitResponse
    rw [if_neg (by simp), if_pos ⟨hraw, hch⟩]
  rw [hpr]
  apply lookup_fold_const
  left
  exact List.mem_map_of_mem FileChange.path hc

/-- Witness for C2 at spec scenario 2. -/
theorem granular_fallback_uniform_witness :
    lookupA (parseCommitResponse rawNoFraming [chXGo, chYGo] true) chXGo.path =
      some (trimSpace rawNoFraming) ∧
    lookupA (parseCommitResponse rawNoFraming [chXGo, chYGo] true) chYGo.path =
      some (trimSpace rawNoFraming) :=
  ⟨granular_fallback_uniform rawNoFraming [chXGo, chYGo] (by decide) (by decide)
      chXGo (by decide),
    granular_fallback_uniform rawNoFraming [chXGo, chYGo] (by decide) (by decide)
      chYGo (by decide)⟩

/-- C3: a block contributes an entry exactly when both a non-empty file path
and a non-empty message were captured from it, and the final binding of
every key is the one from the last block that contributed that key (last
write wins, no merging). -/
theorem granular_entry_capture_and_last_write_wins :
    (∀ b : Str, (parseBlock b).isSome = true ↔
      ((blockFold b).filePath ≠ [] ∧ (blockFold b).message ≠ [])) ∧
    (∀ raw k, lookupA (granularEntries raw) k =
      ((((splitGo sep3 raw).filterMap parseBlock).filter
        (fun e => e.1 == k)).getLast?).map Prod.snd) := by
  constructor
  · intro b
    by_cases hb : trimSpace b = []
    · have hbf : blockFold b = ⟨[], [], false⟩ := by
        unfold blockFold
        rw [hb]
        decide
      unfold parseBlock
      rw [if_pos hb, hbf]
      simp
    · unfold parseBlock
      rw [if_neg hb]
      by_cases hcond : (blockFold b).filePath ≠ [] ∧ (blockFold b).message ≠ []
      · rw [if_pos hcond]
        simp [hcond]
      · rw [if_neg hcond]
        simp [hcond]
  · intro raw k
    rw [granularEntries_eq, foldl_mapInsert_lookup]
    cases hg : (((splitGo sep3 raw).filterMap parseBlock).filter
        (fun e => e.1 == k)).getLast? with
    | none => rfl
    | some e => rfl

/-! ## Substring occurrence lemmas for the prompt builder -/

theorem containsSub_self_append {d : Str} (hd : d ≠ []) (t : Str) :
    containsSub (d ++ t) d = true := by
  unfold containsSub
  rw [findSplit_self_append hd t]
  rfl

theorem containsSub_append_left {b d : Str} (h : containsSub b d = true) (a : Str) :
    containsSub (a ++ b) d = true := by
  unfold containsSub at h ⊢
  induction a with
  | nil => simpa using h
  | cons c a' ih =>
    rw [List.cons_append, findSplit_cons]
    by_cases hp : hasPrefixB d (c :: (a' ++ b)) = true
    · rw [if_pos hp]
      rfl
    · rw [if_neg hp]
      cases hfs : findSplit d (a' ++ b) with
      | none =>
        rw [hfs] at ih
        simp at ih
      | some q => simp

theorem containsSub_of_append (a d b : Str) (hd : d ≠ []) :
    containsSub (a ++ d ++ b) d = true := by
  rw [List.append_assoc]
  exact containsSub_append_left (containsSub_self_append hd b) a

theorem prompt_decomp (cfg : Config) (changes : List FileChange) (granular : Bool)
    (rc : List Str) :
    buildCommitPrompt cfg changes granular rc =
      (roleText ++ (if cfg.commitStyle = conventionalName then conventionalText else [])) ++
      (if cfg.language = ptName ∨ cfg.language = ptBrName then ptDirective
       else enDirective) ++
      (recentSection rc ++
        (if granular then granHeadA changes.length ++ granHeadB ++
            (changes.map fileBlockGranular).flatten
         else singleHead ++ (changes.map fileBlockSingle).flatten)) := by
  unfold buildCommitPrompt
  simp [List.append_assoc]

/-- C4: on a deserialized reply envelope, callGemini fails with a backend
error carrying exactly the envelope's structured error message when one is
present; fails with the empty-response error when there is no candidate or
the first candidate has no content part; and otherwise returns the first
candidate's first part's text verbatim, untrimmed. -/
theorem callGemini_envelope_handling :
    (∀ (resp : GeminiResponse) (e : GeminiError), resp.error = some e →
      callGeminiResult resp = Except.error (CallError.backendError e.message)) ∧
    (∀ resp : GeminiResponse, resp.error = none →
      (resp.candidates = [] ∨
        ∃ c cs, resp.candidates = c :: cs ∧ c.content.parts = []) →
      callGeminiResult resp = Except.error CallError.emptyResponse) ∧
    (∀ (resp : GeminiResponse) (c : GeminiCandidate) (cs : List GeminiCandidate)
      (p : GeminiPart) (ps : List GeminiPart), resp.error = none →
      resp.candidates = c :: cs → c.content.parts = p :: ps →
      callGeminiResult resp = Except.ok p.text) := by
  refine ⟨?_, ?_, ?_⟩
  · intro resp e he
    obtain ⟨cands, err⟩ := resp
    simp only at he
    subst he
    rfl
  · intro resp he hcand
    obtain ⟨cands, err⟩ := resp
    simp only at he
    subst he
    rcases hcand with h | ⟨c, cs, hc, hp⟩
    · simp only at h
      subst h
      rfl
    · simp only at hc
      subst hc
      have hred : callGeminiResult ⟨c :: cs, none⟩ =
          (match c.content.parts with
           | [] => Except.error CallError.emptyResponse
           | p :: _ => Except.ok p.text) := rfl
      rw [hred, hp]
  · intro resp c cs p ps he hc hp
    obtain ⟨cands, err⟩ := resp
    simp only at he hc
    subst he
    subst hc
    have hred : callGeminiResult ⟨c :: cs, none⟩ =
        (match c.content.parts with
         | [] => Except.error CallError.emptyResponse
         | p :: _ => Except.ok p.text) := rfl
    rw [hred, hp]

/-- Witness for C4: the quota-exceeded scenario, both empty-response shapes,
and a verbatim success whose text keeps its surrounding whitespace. -/
theorem callGemini_envelope_handling_witness :
    callGeminiResult respErr = Except.error (CallError.backendError quotaMsg) ∧
    callGeminiResult respEmptyCand = Except.error CallError.emptyResponse ∧
    callGeminiResult respNoParts = Except.error CallError.emptyResponse ∧
    callGeminiResult respOk = Except.ok okText :=
  ⟨callGemini_envelope_handling.1 respErr ⟨quotaMsg⟩ rfl,
   callGemini_envelope_handling.2.1 respEmptyCand rfl (Or.inl rfl),
   callGemini_envelope_handling.2.1 respNoParts rfl (Or.inr ⟨⟨⟨[]⟩⟩, [], rfl, rfl⟩),
   callGemini_envelope_handling.2.2 respOk ⟨⟨[⟨okText⟩]⟩⟩ [] ⟨okText⟩ [] rfl rfl rfl⟩

set_option maxRecDepth 20000 in
/-- C5 counterexample: for the language value `PT` the prompt does not
contain the Portuguese directive at all, refuting the claimed
case-insensitive match. -/
theorem language_directive_case_sensitive_cex :
    containsSub (buildCommitPrompt cfgPT [] false []) ptDirective = false := by decide

/-- C5 amended: the branch is case-sensitive — exactly the language values
`pt` and `pt-br` make buildCommitPrompt emit the Portuguese (pt-BR)
directive, and every other value (including `PT` and `Pt-BR`) makes it emit
the English directive. -/
theorem language_directive_exact_match (cfg : Config) (changes : List FileChange)
    (granular : Bool) (rc : List Str) :
    containsSub (buildCommitPrompt cfg changes granular rc)
      (if cfg.language = ptName ∨ cfg.language = ptBrName then ptDirective
       else enDirective) = true := by
  rw [prompt_decomp]
  by_cases hl : cfg.language = ptName ∨ cfg.language = ptBrName
  · rw [if_pos hl]
    exact containsSub_of_append _ _ _ (by decide)
  · rw [if_neg hl]
    exact containsSub_of_append _ _ _ (by decide)

/-- A prefix of `s` is also a prefix of `s ++ t`. -/
theorem hasPrefixB_append_right {p s : Str} (h : hasPrefixB p s = true) (t : Str) :
    hasPrefixB p (s ++ t) = true := by
  rw [hasPrefixB_iff] at h ⊢
  exact h.trans (List.prefix_append s t)

theorem findSplit_isSome_append {d a : Str} (h : (findSplit d a).isSome = true) (b : Str) :
    (findSplit d (a ++ b)).isSome = true := by
  induction a with
  | nil => simp [findSplit] at h
  | cons c a2 ih =>
    rw [List.cons_append, findSplit_cons]
    by_cases hp2 : hasPrefixB d (c :: (a2 ++ b)) = true
    · rw [if_pos hp2]
      rfl
    · rw [if_neg hp2]
      rw [findSplit_cons] at h
      have hp : ¬ hasPrefixB d (c :: a2) = true := by
        intro hp
        apply hp2
        have h3 := hasPrefixB_append_right hp b
        rwa [List.cons_append] at h3
      rw [if_neg hp] at h
      cases hfs : findSplit d a2 with
      | none =>
        rw [hfs] at h
        simp at h
      | some q =>
        have h2 := ih (by rw [hfs]; rfl)
        cases hfs2 : findSplit d (a2 ++ b) with
        | none =>
          rw [hfs2] at h2
          simp at h2
        | some q2 => simp

theorem containsSub_append_right {a d : Str} (h : containsSub a d = true) (b : Str) :
    containsSub (a ++ b) d = true := by
  unfold containsSub at h ⊢
  exact findSplit_isSome_append h b

/-- C6: in granular mode the per-file fenced diff block embeds exactly the
first 3000 characters of an over-long diff followed by the fixed truncation
marker, while a diff of exactly 3000 characters is embedded unmodified
(3001 characters is the first truncated length). -/
theorem granular_diff_truncation_boundary (cfg : Config) (changes : List FileChange)
    (rc : List Str) (c : FileChange) (hc : c ∈ changes) :
    (3000 < c.diff.length →
      containsSub (buildCommitPrompt cfg changes true rc)
        (diffOpen ++ (c.diff.take 3000 ++ truncMarker) ++ fenceClose) = true) ∧
    (c.diff.length = 3000 →
      containsSub (buildCommitPrompt cfg changes true rc)
        (diffOpen ++ c.diff ++ fenceClose) = true) := by
  obtain ⟨l1, l2, rfl⟩ := List.append_of_mem hc
  have hkey : ∀ d : Str, truncGranular c.diff = d → c.diff ≠ [] →
      containsSub (buildCommitPrompt cfg (l1 ++ c :: l2) true rc)
        (diffOpen ++ d ++ fenceClose) = true := by
    intro d hd hdne
    have htne : diffOpen ++ d ++ fenceClose ≠ [] :=
      List.append_ne_nil_of_left_ne_nil
        (List.append_ne_nil_of_left_ne_nil (by decide) d) fenceClose
    have hfb : fileBlockGranular c =
        (fileMarkerSp ++ c.path ++ statusOpen ++ c.status ++ statusClose) ++
          ((diffOpen ++ d ++ fenceClose) ++ nl) := by
      unfold fileBlockGranular
      rw [if_neg hdne, hd]
      simp [List.append_assoc]
    have hflat : ((l1 ++ c :: l2).map fileBlockGranular).flatten =
        (l1.map fileBlockGranular).flatten ++
          (fileBlockGranular c ++ (l2.map fileBlockGranular).flatten) := by
      rw [List.map_append, List.flatten_append, List.map_cons, List.flatten_cons]
    rw [prompt_decomp, if_pos rfl, hflat, hfb]
    apply containsSub_append_left
    apply containsSub_append_left
    apply containsSub_append_left
    apply containsSub_append_left
    apply containsSub_append_right
    apply containsSub_append_left
    exact containsSub_self_append htne nl
  constructor
  · intro hlen
    refine hkey (c.diff.take 3000 ++ truncMarker) ?_ ?_
    · unfold truncGranular
      rw [if_pos hlen]
    · intro hnil
      rw [hnil] at hlen
      simp at hlen
  · intro hlen
    refine hkey c.diff ?_ ?_
    · unfold truncGranular
      rw [if_neg (by omega)]
    · intro hnil
      rw [hnil] at hlen
      simp at hlen

/-- Witness for C6: a 3001-character diff is truncated, a 3000-character
diff is passed through. -/
theorem granular_diff_truncation_boundary_witness :
    3000 < chBig.diff.length ∧ chExact.diff.length = 3000 ∧
    containsSub (buildCommitPrompt cfgPT [chBig, chExact] true [])
      (diffOpen ++ (chBig.diff.take 3000 ++ truncMarker) ++ fenceClose) = true ∧
    containsSub (buildCommitPrompt cfgPT [chBig, chExact] true [])
      (diffOpen ++ chExact.diff ++ fenceClose) = true :=
  have hlen1 : chBig.diff.length = 3001 := by
    show (List.replicate 3001 'x').length = 3001
    rw [List.length_replicate]
  have hlen2 : chExact.diff.length = 3000 := by
    show (List.replicate 3000 'x').length = 3000
    rw [List.length_replicate]
  ⟨by rw [hlen1]; omega, hlen2,
   (granular_diff_truncation_boundary cfgPT [chBig, chExact] [] chBig
      (List.mem_cons_self _ _)).1 (by rw [hlen1]; omega),
   (granular_diff_truncation_boundary cfgPT [chBig, chExact] [] chExact
      (List.mem_cons_of_mem _ (List.mem_cons_self _ _))).2 hlen2⟩

/-! ## Diff splitting -/

theorem splitDiffLine_header (st : SplitState) (line file : Str)
    (hpre : hasPrefixB diffMarker line = true)
    (hfile : (if 2 ≤ (splitGo bSlash line).length then (splitGo bSlash line).getLastD []
              else st.currentFile) = file) :
    splitDiffLine st line =
      ⟨file, [line],
        if st.currentFile ≠ [] ∧ st.currentLines ≠ [] then
          mapInsert st.result st.currentFile (joinGo nl st.currentLines)
        else st.result⟩ := by
  simp only [splitDiffLine]
  rw [if_pos hpre, hfile]

theorem splitDiffLine_body (st : SplitState) {line : Str}
    (hpre : hasPrefixB diffMarker line = false) :
    splitDiffLine st line = ⟨st.currentFile, st.currentLines ++ [line], st.result⟩ := by
  simp only [splitDiffLine]
  rw [if_neg (by simp [hpre])]

theorem foldBody : ∀ (ls : List Str) (st : SplitState),
    (∀ l ∈ ls, hasPrefixB diffMarker l = false) →
    ls.foldl splitDiffLine st = ⟨st.currentFile, st.currentLines ++ ls, st.result⟩ := by
  intro ls
  induction ls with
  | nil =>
    intro st _
    cases st
    simp
  | cons l ls ih =>
    intro st hok
    rw [List.foldl_cons, splitDiffLine_body st (hok l (List.mem_cons_self l ls)),
      ih _ (fun x hx => hok x (List.mem_cons_of_mem l hx))]
    simp

theorem hasPrefixB_joinGo_head (x : Str) (xs : List Str) (sep : Str) :
    hasPrefixB x (joinGo sep (x :: xs)) = true := by
  cases xs with
  | nil =>
    rw [hasPrefixB_iff]
    exact List.prefix_refl x
  | cons y ys =>
    rw [joinGo_cons, List.append_assoc]
    exact hasPrefixB_append_self x _

/-- C7: on a combined diff with sections for `a.txt` and `b/c.txt` (a header
line for each, then any body lines that are neither section markers nor
multi-line), splitDiffByFile returns exactly those two keys — each derived
by splitting the section's `diff --git ` marker line on ` b/` and taking
the final segment — and each value starts with its own header line. -/
theorem splitDiffByFile_two_sections (body1 body2 : List Str)
    (h1 : ∀ l ∈ body1, hasPrefixB diffMarker l = false ∧ nlc ∉ l)
    (h2 : ∀ l ∈ body2, hasPrefixB diffMarker l = false ∧ nlc ∉ l) :
    splitDiffByFile (joinGo nl ((hdrATxt :: body1) ++ hdrBCTxt :: body2)) =
      [(pathATxt, joinGo nl (hdrATxt :: body1)),
       (pathBCTxt, joinGo nl (hdrBCTxt :: body2))] ∧
    pathATxt = (splitGo bSlash hdrATxt).getLastD [] ∧
    pathBCTxt = (splitGo bSlash hdrBCTxt).getLastD [] ∧
    hasPrefixB hdrATxt (joinGo nl (hdrATxt :: body1)) = true ∧
    hasPrefixB hdrBCTxt (joinGo nl (hdrBCTxt :: body2)) = true := by
  refine ⟨?_, by decide, by decide, hasPrefixB_joinGo_head _ _ _,
    hasPrefixB_joinGo_head _ _ _⟩
  have hlines : splitGo nl (joinGo nl ((hdrATxt :: body1) ++ hdrBCTxt :: body2)) =
      (hdrATxt :: body1) ++ hdrBCTxt :: body2 := by
    rw [nl_eq]
    apply splitGo_joinGo (by simp)
    intro p hp
    rcases List.mem_append.mp hp with hp | hp
    · rcases List.mem_cons.mp hp with hp | hp
      · subst hp
        decide
      · exact (h1 p hp).2
    · rcases List.mem_cons.mp hp with hp | hp
      · subst hp
        decide
      · exact (h2 p hp).2
  have s1 : splitDiffLine ⟨[], [], []⟩ hdrATxt = ⟨pathATxt, [hdrATxt], []⟩ := by
    rw [splitDiffLine_header ⟨[], [], []⟩ hdrATxt pathATxt (by decide) (by decide)]
    rfl
  have s2 : List.foldl splitDiffLine ⟨pathATxt, [hdrATxt], []⟩ body1 =
      ⟨pathATxt, hdrATxt :: body1, []⟩ := by
    rw [foldBody body1 _ (fun l hl => (h1 l hl).1)]
    rfl
  have s3 : splitDiffLine ⟨pathATxt, hdrATxt :: body1, []⟩ hdrBCTxt =
      ⟨pathBCTxt, [hdrBCTxt], [(pathATxt, joinGo nl (hdrATxt :: body1))]⟩ := by
    rw [splitDiffLine_header ⟨pathATxt, hdrATxt :: body1, []⟩ hdrBCTxt pathBCTxt
      (by decide) (by rw [if_pos (by decide)]; decide)]
    rw [if_pos ⟨show pathATxt ≠ [] from by decide,
      show hdrATxt :: body1 ≠ [] from by simp⟩]
    rfl
  have s4 : List.foldl splitDiffLine
      ⟨pathBCTxt, [hdrBCTxt], [(pathATxt, joinGo nl (hdrATxt :: body1))]⟩ body2 =
      ⟨pathBCTxt, hdrBCTxt :: body2, [(pathATxt, joinGo nl (hdrATxt :: body1))]⟩ := by
    rw [foldBody body2 _ (fun l hl => (h2 l hl).1)]
    rfl
  have hfold : ((hdrATxt :: body1) ++ hdrBCTxt :: body2).foldl splitDiffLine ⟨[], [], []⟩ =
      ⟨pathBCTxt, hdrBCTxt :: body2, [(pathATxt, joinGo nl (hdrATxt :: body1))]⟩ := by
    rw [List.cons_append, List.foldl_cons, s1, List.foldl_append, s2, List.foldl_cons,
      s3, s4]
  simp only [splitDiffByFile]
  rw [hlines, hfold, if_pos ⟨show pathBCTxt ≠ [] from by decide,
    show hdrBCTxt :: body2 ≠ [] from by simp⟩]
  show (List.filter (fun e => !(e.1 == pathBCTxt))
      [(pathATxt, joinGo nl (hdrATxt :: body1))]) ++
      [(pathBCTxt, joinGo nl (hdrBCTxt :: body2))] =
    [(pathATxt, joinGo nl (hdrATxt :: body1)), (pathBCTxt, joinGo nl (hdrBCTxt :: body2))]
  rw [List.filter_cons,
    if_pos (show (!(pathATxt == pathBCTxt)) = true from by decide)]
  rfl

/-- Witness for C7 at a concrete two-section combined diff. -/
theorem splitDiffByFile_two_sections_witness :
    splitDiffByFile (joinGo nl ((hdrATxt :: bodyA) ++ hdrBCTxt :: bodyBC)) =
      [(pathATxt, joinGo nl (hdrATxt :: bodyA)),
       (pathBCTxt, joinGo nl (hdrBCTxt :: bodyBC))] :=
  (splitDiffByFile_two_sections bodyA bodyBC (by decide) (by decide)).1

/-! ## Version extraction -/

theorem firstVersionLine_eq_find (fb : Str) : ∀ ls : List Str,
    firstVersionLine fb ls =
      match (ls.map trimSpace).find? versionLineP with
      | some l => trimPrefixB l vStr
      | none => fb := by
  intro ls
  induction ls with
  | nil => rfl
  | cons l ls ih =>
    simp only [firstVersionLine, List.map_cons]
    by_cases hv : versionLineP (trimSpace l) = true
    · rw [if_pos hv, List.find?_cons_of_pos _ hv]
    · rw [if_neg hv, List.find?_cons_of_neg _ hv, ih]

/-- C8: the reply post-processing of SuggestNextVersion returns, for the
first line of the trimmed reply whose trimmed form starts with `v` or a
digit, that trimmed line with a single leading `v` stripped, and the whole
trimmed reply when no such line exists; in particular the reply
`"Explanation...\nv2.3.1\n"` yields `"2.3.1"`. -/
theorem suggestNextVersion_extraction :
    (∀ raw : Str, extractVersion raw =
      match ((splitGo nl (trimSpace raw)).map trimSpace).find? versionLineP with
      | some l => trimPrefixB l vStr
      | none => trimSpace raw) ∧
    extractVersion verRaw = verOut := by
  constructor
  · intro raw
    unfold extractVersion
    exact firstVersionLine_eq_find (trimSpace raw) (splitGo nl (trimSpace raw))
  · decide

/-! ## Single-message mode -/

/-- C9 counterexample: in single-message mode the sentinel entry holds the
whitespace-trimmed reply, not the entire reply text: for the reply
`" x \n"` the stored value is `"x"`. -/
theorem single_mode_entire_text_cex :
    parseCommitResponse cexRaw9 [] false ≠ [(allKey, cexRaw9)] := by decide

/-- C9 amended: in single-message mode, for every reply text,
parseCommitResponse returns a mapping whose only entry maps the sentinel
key `__all__` to the whitespace-trimmed reply text. -/
theorem single_mode_sentinel_trimmed (raw : Str) (changes : List FileChange) :
    parseCommitResponse raw changes false = [(allKey, trimSpace raw)] := by
  unfold parseCommitResponse
  rw [if_pos rfl]

/-! ## Config saving -/

/-- C10: when the GEMINI_API_KEY environment variable is non-empty, Save
blanks the API key of the struct it marshals, so the written JSON carries an
empty gemini_api_key and two configurations differing only in their
in-memory API key produce identical file contents. -/
theorem save_env_key_never_written (c1 c2 : Config) (env : Str) (henv : env ≠ [])
    (hl : c1.language = c2.language) (hs : c1.commitStyle = c2.commitStyle)
    (ht : c1.maxTokens = c2.maxTokens) (hm : c1.model = c2.model) :
    (savedConfig c1 env).geminiAPIKey = [] ∧
    marshalConfig (savedConfig c1 env) = marshalConfig (savedConfig c2 env) := by
  have h1 : savedConfig c1 env = { c1 with geminiAPIKey := [] } := by
    unfold savedConfig
    rw [if_pos henv]
  have h2 : savedConfig c2 env = { c2 with geminiAPIKey := [] } := by
    unfold savedConfig
    rw [if_pos henv]
  refine ⟨by rw [h1], ?_⟩
  rw [h1, h2]
  obtain ⟨k1, l1, s1, t1, m1⟩ := c1
  obtain ⟨k2, l2, s2, t2, m2⟩ := c2
  simp only at hl hs ht hm
  subst hl
  subst hs
  subst ht
  subst hm
  rfl

/-- Witness for C10: a concrete non-empty environment key and two configs
differing only in the in-memory key. -/
theorem save_env_key_never_written_witness :
    envSecret ≠ [] ∧
    (savedConfig cfgKeyA envSecret).geminiAPIKey = [] ∧
    marshalConfig (savedConfig cfgKeyA envSecret) =
      marshalConfig (savedConfig cfgKeyB envSecret) :=
  ⟨by decide,
   (save_env_key_never_written cfgKeyA cfgKeyB envSecret (by decide) rfl rfl rfl rfl).1,
   (save_env_key_never_written cfgKeyA cfgKeyB envSecret (by decide) rfl rfl rfl rfl).2⟩

end Commitai
